import Mathlib

set_option maxRecDepth 8000

/-!
Verification development for `hetzner/util.py`, a small IPv4/IPv6
address-arithmetic module.  Strings are modelled as `List Char`
(`String.data`), Python integers as `Nat`/`Int`, and raised exceptions as
`none` of an `Option` result.

`util.py` delegates textual parsing and formatting to the platform
`socket.inet_pton` / `socket.inet_ntop`; those are modelled here
(`inet_pton4`, `inet_pton6`, `inet_ntop4`, `ntop6`) as direct
transcriptions of the BIND-derived algorithms used by glibc and the other
mainstream C libraries, which `socket` calls on Linux.  The pure-Python
functions (`get_ipv4_range`, `get_ipv6_range`, `parse_ipaddr`, the
`struct` packing glue) are transcribed from `util.py` itself.
-/

/-- Truth of the character-class test `'0' <= c <= '9'` used by `inet_pton4`. -/
def isDecDigitChar (c : Char) : Bool :=
  '0' ≤ c && c ≤ '9'

/-- Numeric value `c - '0'` of a decimal digit character. -/
def decDigitVal (c : Char) : Nat :=
  c.toNat - '0'.toNat

/-- Hexadecimal value of a character, `none` when it is not a hex digit.
Mirrors the `xdigits_l` / `xdigits_u` lookup of the platform `inet_pton6`. -/
def hexVal (c : Char) : Option Nat :=
  if '0' ≤ c ∧ c ≤ '9' then some (c.toNat - '0'.toNat)
  else if 'a' ≤ c ∧ c ≤ 'f' then some (c.toNat - 'a'.toNat + 10)
  else if 'A' ≤ c ∧ c ≤ 'F' then some (c.toNat - 'A'.toNat + 10)
  else none

/-- Decimal digits of `n`, most significant first, no leading zeros
(`"0"` for `0`), as printed by C `sprintf("%u", n)`.  The `fuel`
argument only forces structural termination; `fuel > n` is always enough. -/
def decDigitsAux : Nat → Nat → List Char
  | 0, _ => []
  | fuel + 1, n =>
    if n < 10 then [Nat.digitChar n]
    else decDigitsAux fuel (n / 10) ++ [Nat.digitChar (n % 10)]

/-- Decimal rendering of `n` as a character list (C `sprintf("%u", n)`). -/
def decDigits (n : Nat) : List Char :=
  decDigitsAux (n + 1) n

/-- Lowercase hexadecimal digits of `n`, most significant first, no leading
zeros (`"0"` for `0`), as printed by C `sprintf("%x", n)`. -/
def hexDigitsAux : Nat → Nat → List Char
  | 0, _ => []
  | fuel + 1, n =>
    if n < 16 then [Nat.digitChar n]
    else hexDigitsAux fuel (n / 16) ++ [Nat.digitChar (n % 16)]

/-- Hexadecimal rendering of `n` as a character list (C `sprintf("%x", n)`). -/
def hexDigits (n : Nat) : List Char :=
  hexDigitsAux (n + 1) n

/-- State of the `inet_pton4` character loop: `done` holds the completed
octets (most significant first, the bytes behind `tp`), `cur` the octet
being accumulated (`*tp`), `sawDigit` and `octets` the equally named C
locals. -/
structure Pton4State where
  done : List Nat
  cur : Nat
  sawDigit : Bool
  octets : Nat
deriving Repr, DecidableEq

/-- Character loop of the platform `inet_pton4` (BIND/glibc): strict
dotted-quad decimal, exactly four octets, each `0..255`, a leading zero in
an octet rejected, any other character rejected.  Returns the four bytes. -/
def pton4Loop : List Char → Pton4State → Option (List Nat)
  | [], st =>
    if st.octets < 4 then none
    else some (st.done ++ [st.cur])
  | c :: rest, st =>
    if isDecDigitChar c then
      let newVal := st.cur * 10 + decDigitVal c
      if st.sawDigit ∧ st.cur = 0 then none
      else if newVal > 255 then none
      else if st.sawDigit then
        pton4Loop rest { st with cur := newVal }
      else if st.octets + 1 > 4 then none
      else pton4Loop rest { st with cur := newVal, sawDigit := true, octets := st.octets + 1 }
    else if c = '.' ∧ st.sawDigit then
      if st.octets = 4 then none
      else pton4Loop rest { done := st.done ++ [st.cur], cur := 0, sawDigit := false, octets := st.octets }
    else none

/-- Platform `inet_pton(AF_INET)`: parse a dotted quad into its four bytes. -/
def inet_pton4 (s : List Char) : Option (List Nat) :=
  pton4Loop s ⟨[], 0, false, 0⟩

/-- Big-endian byte-list to integer, the effect of `struct.unpack`
with format `!L` (and of `!QQ` combined as `high << 64 | low`). -/
def bytesToNat (bs : List Nat) : Nat :=
  bs.foldl (fun acc b => acc * 256 + b) 0

/-- `util.py` `parse_ipv4`: `socket.inet_pton(AF_INET, addr)` followed by
`struct.unpack('!L', ...)`; the `socket.error` raised on bad input is
modelled as `none`. -/
def parse_ipv4 (addr : List Char) : Option Nat :=
  (inet_pton4 addr).map bytesToNat

/-- Platform `inet_ntop(AF_INET)`: `sprintf("%u.%u.%u.%u", ...)` over the
four bytes. -/
def inet_ntop4 (bs : List Nat) : List Char :=
  match bs with
  | [a, b, c, d] =>
    decDigits a ++ '.' :: decDigits b ++ '.' :: decDigits c ++ '.' :: decDigits d
  | _ => []

/-- The four big-endian bytes of a 32-bit value, the effect of
`struct.pack('!L', n)` on an in-range value. -/
def v4bytes (n : Nat) : List Nat :=
  [n / 2 ^ 24 % 256, n / 2 ^ 16 % 256, n / 2 ^ 8 % 256, n % 256]

/-- `util.py` `ipv4_bin2addr`: `struct.pack('!L', numeric_addr)` (which
raises `struct.error` outside `[0, 2^32 - 1]`, modelled as `none`)
followed by `socket.inet_ntop(AF_INET, ...)`. -/
def ipv4_bin2addr (numeric_addr : Int) : Option (List Char) :=
  if numeric_addr < 0 ∨ (2 : Int) ^ 32 ≤ numeric_addr then none
  else some (inet_ntop4 (v4bytes numeric_addr.toNat))

/-- `util.py` `get_ipv4_range`.  Python raises
`ValueError: negative shift count` when the shift amount `32 - prefix_len`
is negative, modelled as `none`; all other paths return normally, with
arbitrary-precision integer arithmetic. -/
def get_ipv4_range (numeric_netaddr : Nat) (prefix_len : Int) : Option (Nat × Nat) :=
  let mask_inverted : Int := 32 - prefix_len
  if mask_inverted < 0 then none
  else
    let mi := mask_inverted.toNat
    let mask_bin := (0xffffffff >>> mi) <<< mi
    let range_start := numeric_netaddr &&& mask_bin
    let range_end := range_start ||| ((1 <<< mi) - 1)
    some (range_start, range_end)

/-- `util.py` `get_ipv6_range`: the same computation over 128 bits. -/
def get_ipv6_range (numeric_netaddr : Nat) (prefix_len : Int) : Option (Nat × Nat) :=
  let mask_bin_full : Nat := 0xffffffffffffffffffffffffffffffff
  let mask_inverted : Int := 128 - prefix_len
  if mask_inverted < 0 then none
  else
    let mi := mask_inverted.toNat
    let mask_bin := (mask_bin_full >>> mi) <<< mi
    let range_start := numeric_netaddr &&& mask_bin
    let range_end := range_start ||| ((1 <<< mi) - 1)
    some (range_start, range_end)

/-- State of the `inet_pton6` character loop: `ws` the committed 16-bit
words (the bytes behind `tp`, paired up), `colonp` the word count at which
`::` was seen, `saw` / `val` the `saw_xdigit` / `val` C locals, and `tok`
the characters consumed since the last `:` in reverse order (so that
`tok.reverse ++ remaining input` is the C `curtok` suffix). -/
structure Pton6State where
  ws : List Nat
  colonp : Option Nat
  saw : Bool
  val : Nat
  tok : List Char
deriving Repr, DecidableEq

/-- Pair up a big-endian byte list into 16-bit words, as the bytes written
by the embedded `inet_pton4` are read back two at a time. -/
def bytesToWords : List Nat → List Nat
  | a :: b :: rest => (a * 256 + b) :: bytesToWords rest
  | _ => []

/-- End-of-input handling of the platform `inet_pton6`: commit a pending
hex group (bounds checked against the 16-byte buffer), then, when a `::`
was seen, shift the words after it to the end of the buffer, zero-filling
the gap; the result must fill exactly eight words. -/
def pton6Finish (st : Pton6State) : Option (List Nat) :=
  if st.saw ∧ 8 ≤ st.ws.length then none
  else
    let ws := if st.saw then st.ws ++ [st.val] else st.ws
    match st.colonp with
    | some c =>
      if ws.length = 8 then none
      else some (ws.take c ++ List.replicate (8 - ws.length) 0 ++ ws.drop c)
    | none => if ws.length = 8 then some ws else none

/-- Character loop of the platform `inet_pton6` (BIND/glibc): hex digits
accumulate `val` (failing above `0xffff`), `:` commits a group or, after
another `:`, records the one allowed `::`, and `.` hands the whole current
token to `inet_pton4` as an embedded dotted quad (four trailing bytes). -/
def pton6Loop : List Char → Pton6State → Option (List Nat)
  | [], st => pton6Finish st
  | c :: rest, st =>
    match hexVal c with
    | some d =>
      let newVal := st.val * 16 + d
      if newVal > 0xffff then none
      else pton6Loop rest { st with saw := true, val := newVal, tok := c :: st.tok }
    | none =>
      if c = ':' then
        if st.saw then
          if 8 ≤ st.ws.length then none
          else pton6Loop rest { ws := st.ws ++ [st.val], colonp := st.colonp, saw := false, val := 0, tok := [] }
        else
          match st.colonp with
          | some _ => none
          | none => pton6Loop rest { st with colonp := some st.ws.length, tok := [] }
      else if c = '.' ∧ st.ws.length ≤ 6 then
        match inet_pton4 (st.tok.reverse ++ c :: rest) with
        | some bs => pton6Finish { st with ws := st.ws ++ bytesToWords bs, saw := false }
        | none => none
      else none

/-- Leading-`::` special case of the platform `inet_pton6`: a leading `:`
is consumed and must be followed by another `:`. -/
def pton6Start (s : List Char) : Option (List Char) :=
  match s with
  | [] => some []
  | c :: rest =>
    if c = ':' then
      match rest with
      | c2 :: _ => if c2 = ':' then some rest else none
      | [] => none
    else some (c :: rest)

/-- Platform `inet_pton(AF_INET6)`: parse a colon-hex IPv6 literal
(with optional `::` compression and optional embedded dotted quad) into
its eight big-endian 16-bit words. -/
def inet_pton6 (s : List Char) : Option (List Nat) :=
  match pton6Start s with
  | none => none
  | some s' => pton6Loop s' ⟨[], none, false, 0, []⟩

/-- Big-endian word-list to integer, the effect of `struct.unpack('!QQ')`
combined as `high << 64 | low` in `parse_ipv6`. -/
def wordsToNat (ws : List Nat) : Nat :=
  ws.foldl (fun acc w => acc * 65536 + w) 0

/-- `util.py` `parse_ipv6`: `socket.inet_pton(AF_INET6, addr)` followed by
`struct.unpack('!QQ', ...)` and `high << 64 | low`; the `socket.error`
raised on bad input is modelled as `none`. -/
def parse_ipv6 (addr : List Char) : Option Nat :=
  (inet_pton6 addr).map wordsToNat

/-- Update of the best zero run by a finished current run, the
`best.base == -1 || cur.len > best.len` comparison of `inet_ntop6`
(strict, so the leftmost longest run wins). -/
def updBest (best : Option (Nat × Nat)) (cur : Nat × Nat) : Option (Nat × Nat) :=
  match best with
  | none => some cur
  | some b => if b.2 < cur.2 then some cur else some b

/-- The run-finding loop of the platform `inet_ntop6`: walk the words with
their index, tracking the current run of zero words and the best run seen. -/
def runsGo : List Nat → Nat → Option (Nat × Nat) → Option (Nat × Nat) → Option (Nat × Nat)
  | [], _, best, cur =>
    match cur with
    | none => best
    | some c => updBest best c
  | w :: tail, i, best, cur =>
    if w = 0 then
      match cur with
      | none => runsGo tail (i + 1) best (some (i, 1))
      | some c => runsGo tail (i + 1) best (some (c.1, c.2 + 1))
    else
      match cur with
      | none => runsGo tail (i + 1) best cur
      | some c => runsGo tail (i + 1) (updBest best c) none

/-- Best zero run of the word list per the platform `inet_ntop6`,
discarded when shorter than two words (`best.len < 2 → best.base = -1`). -/
def bestRun (ws : List Nat) : Option (Nat × Nat) :=
  match runsGo ws 0 none none with
  | none => none
  | some b => if b.2 < 2 then none else some b

/-- Truth of `best.base != -1 && best.base <= i < best.base + best.len`. -/
def inRun (best : Option (Nat × Nat)) (i : Nat) : Bool :=
  match best with
  | none => false
  | some b => b.1 ≤ i && i < b.1 + b.2

/-- Truth of the `inet_ntop6` encapsulated-IPv4 test at `i == 6`:
`best.base == 0 && (best.len == 6 || (best.len == 7 && words[7] != 1) ||
(best.len == 5 && words[5] == 0xffff))`. -/
def isEmbedded (best : Option (Nat × Nat)) (ws : List Nat) : Bool :=
  match best with
  | none => false
  | some b =>
    b.1 == 0 &&
      (b.2 == 6 || (b.2 == 7 && ws.getD 7 0 != 1) || (b.2 == 5 && ws.getD 5 0 == 0xffff))

/-- Truth of the trailing-run test `best.base + best.len == 8` that makes
`inet_ntop6` append a final `:`. -/
def endsInRun (best : Option (Nat × Nat)) : Bool :=
  match best with
  | none => false
  | some b => b.1 + b.2 == 8

/-- Truth of `i == best.base`, the position where `inet_ntop6` emits the
single `:` standing for the whole best run. -/
def isRunBase (best : Option (Nat × Nat)) (i : Nat) : Bool :=
  match best with
  | none => false
  | some b => b.1 == i

/-- The two words at positions 6 and 7 rendered back into their four
bytes, the `src + 12` passed to the embedded `inet_ntop4`. -/
def wordsToBytes2 (w6 w7 : Nat) : List Nat :=
  [w6 / 256, w6 % 256, w7 / 256, w7 % 256]

/-- Output loop of the platform `inet_ntop6` from position `i` on, with
structural fuel (`fuel = 8 - i` at every real call): inside the best run
only its base emits `:`; other positions emit a separating `:` (except at
position 0) and the group in lowercase hex; at position 6 an encapsulated
IPv4 tail is rendered as a dotted quad instead and the loop stops; a best
run reaching position 8 appends a final `:`. -/
def ntop6Go (ws : List Nat) (best : Option (Nat × Nat)) : Nat → Nat → List Char
  | 0, _ => if endsInRun best then [':'] else []
  | fuel + 1, i =>
    if inRun best i then
      (if isRunBase best i then [':'] else []) ++ ntop6Go ws best fuel (i + 1)
    else
      (if i ≠ 0 then [':'] else []) ++
        (if i = 6 ∧ isEmbedded best ws then
          inet_ntop4 (wordsToBytes2 (ws.getD 6 0) (ws.getD 7 0)) ++
            (if endsInRun best then [':'] else [])
        else hexDigits (ws.getD i 0) ++ ntop6Go ws best fuel (i + 1))

/-- Platform `inet_ntop(AF_INET6)` over the eight 16-bit words. -/
def ntop6 (ws : List Nat) : List Char :=
  ntop6Go ws (bestRun ws) 8 0

/-- The eight big-endian 16-bit words of a 128-bit value, the effect of
`struct.pack('!QQ', high, low)` on in-range values as read by `inet_ntop6`. -/
def v6words (n : Nat) : List Nat :=
  [n / 2 ^ 112 % 65536, n / 2 ^ 96 % 65536, n / 2 ^ 80 % 65536, n / 2 ^ 64 % 65536,
    n / 2 ^ 48 % 65536, n / 2 ^ 32 % 65536, n / 2 ^ 16 % 65536, n % 65536]

/-- `util.py` `ipv6_bin2addr`: `struct.pack('!QQ', high, low)` with
`high = numeric_addr >> 64`, `low = numeric_addr & (2^64 - 1)` (which
raises `struct.error` unless `0 <= high < 2^64`, i.e. unless
`0 <= numeric_addr < 2^128`, modelled as `none`) followed by
`socket.inet_ntop(AF_INET6, ...)`. -/
def ipv6_bin2addr (numeric_addr : Int) : Option (List Char) :=
  if numeric_addr < 0 ∨ (2 : Int) ^ 128 ≤ numeric_addr then none
  else some (ntop6 (v6words numeric_addr.toNat))

/-- Result shape of `util.py` `parse_ipaddr`: a `(is_ipv6, numeric)` pair
when no family was enforced, a bare numeric value when one was. -/
inductive IpParseResult where
  | tagged : Bool → Nat → IpParseResult
  | bare : Nat → IpParseResult
deriving Repr, DecidableEq

/-- `util.py` `parse_ipaddr`: with `is_ipv6 = None` try `parse_ipv4`,
falling back to `parse_ipv6` on its `socket.error` (whose own failure then
propagates); with an explicit `is_ipv6` call the one parser directly. -/
def parse_ipaddr (addr : List Char) (is_ipv6 : Option Bool) : Option IpParseResult :=
  match is_ipv6 with
  | none =>
    match parse_ipv4 addr with
    | some v => some (.tagged false v)
    | none => (parse_ipv6 addr).map (.tagged true)
  | some true => (parse_ipv6 addr).map .bare
  | some false => (parse_ipv4 addr).map .bare

/-- Decimal accumulator of the `inet_pton4` digit loop:
`v -> v * 10 + (c - '0')` over a digit list. -/
def decAcc (v : Nat) (ds : List Char) : Nat :=
  ds.foldl (fun v c => v * 10 + decDigitVal c) v

/-- Hexadecimal accumulator of the `inet_pton6` digit loop:
`v -> v * 16 + hexval(c)` over a digit list. -/
def hAcc (v : Nat) (ds : List Char) : Nat :=
  ds.foldl (fun v c => v * 16 + (hexVal c).getD 0) v

/-- Hex groups each preceded by a `:` separator, the output form of every
`inet_ntop6` group after the first. -/
def joinPre (gs : List Nat) : List Char :=
  gs.foldr (fun g acc => ':' :: (hexDigits g ++ acc)) []

/-- Hex groups joined by `:` separators, the full uncompressed spelling. -/
def hexJoin (gs : List Nat) : List Char :=
  match gs with
  | [] => []
  | g :: gs => hexDigits g ++ joinPre gs

/-- The words committed by feeding `inet_pton6` the pending value `v`
followed by the groups `gs` each behind a `:`: all but the last value. -/
def commitWords (v : Nat) : List Nat → List Nat
  | [] => []
  | g :: gs => v :: commitWords g gs

/-- The pending `val` left after feeding value `v` then groups `gs`. -/
def lastVal (v : Nat) : List Nat → Nat
  | [] => v
  | g :: gs => lastVal g gs

/-- The pending reversed token left after feeding token `t` then groups
`gs`, each group resetting the token to its own reversed spelling. -/
def lastTok (t : List Char) : List Nat → List Char
  | [] => t
  | g :: gs => lastTok (hexDigits g).reverse gs

example : parse_ipv4 ("174.26.72.88".data) = some 2920958040 := by decide
example : parse_ipv4 ("999.999.999.999".data) = none := by decide
example : parse_ipv4 ("0.0.0.0".data) = some 0 := by decide
example : parse_ipv4 ("255.255.255.255".data) = some 4294967295 := by decide
example : get_ipv4_range 0xac100000 12 = some (2886729728, 2887778303) := by decide
example : get_ipv4_range 0xa1b2c3d4 16 = some (2712797184, 2712862719) := by decide
example : get_ipv4_range 0xa1b2c3d4 32 = some (2712847316, 2712847316) := by decide
example : get_ipv4_range 0xa1b2c3d4 0 = some (0, 4294967295) := by decide
example : get_ipv4_range 0x01 64 = none := by decide
example : ipv4_bin2addr 0x01020304 = some ("1.2.3.4".data) := by decide
example : ipv4_bin2addr 0x0000ffff = some ("0.0.255.255".data) := by decide
example : ipv4_bin2addr 0xa1ffff0000 = none := by decide
example : parse_ipv6 ("::".data) = some 0 := by decide
example : parse_ipv6 ("::ffff:192.168.0.1".data) = some 281473913978881 := by decide
example : parse_ipv6 ("fe80::fbd6:7860".data) = some 338288524927261089654018896845572831328 := by decide
example : parse_ipv6 ("ffff:ffff:ffff:ffff:ffff:ffff:ffff:ffff".data) = some 340282366920938463463374607431768211455 := by decide
example : parse_ipv6 ("174.26.72.88".data) = none := by decide
example : parse_ipv6 ("invalid".data) = none := by decide
example : parse_ipaddr ("1.2.3.4".data) none = some (.tagged false 16909060) := by decide
example : parse_ipaddr ("255.255.0.0".data) (some false) = some (.bare 4294901760) := by decide
example : parse_ipaddr ("dead::beef".data) none = some (.tagged true 295986882420777848964380943247191621359) := by decide
example : parse_ipaddr ("ffff::ffff".data) (some true) = some (.bare 340277174624079928635746076935439056895) := by decide
example : parse_ipaddr ("1.2.3.4".data) (some true) = none := by decide
example : parse_ipaddr ("dead::beef".data) (some false) = none := by decide
example : ipv6_bin2addr 0x01020304050607080910111213141516 = some ("102:304:506:708:910:1112:1314:1516".data) := by decide
example : ipv6_bin2addr 0xffff000000000dead00000beef000000 = some ("ffff::dea:d000:be:ef00:0".data) := by decide
example : ipv6_bin2addr 0x123400000000000000000000000000ff = some ("1234::ff".data) := by decide
example : ipv6_bin2addr 0xa1ffff0000000000000000000000000000 = none := by decide
example : ipv6_bin2addr 0 = some ("::".data) := by decide
example : ipv6_bin2addr 1 = some ("::1".data) := by decide
example : ipv6_bin2addr 0x00000000000000000000ffffc0a80001 = some ("::ffff:192.168.0.1".data) := by decide
example : ipv6_bin2addr 0x000000000000000000000000c0a80001 = some ("::192.168.0.1".data) := by decide
example : get_ipv6_range 0x00010203ff05060708091a1b1c1d1e1f 36 = some (5233173638632030885207665411096576, 5233178590392188026728765007593471) := by decide
example : get_ipv6_range 0x000102030405060708091a1b1c1d1e1f 64 = some (5233100606242805471950326074441728, 5233100606242823918694399783993343) := by decide
example : get_ipv6_range 0x000102030405060708091a1b1c1d1e1f 128 = some (5233100606242806050973056906370591, 5233100606242806050973056906370591) := by decide
example : get_ipv6_range 0x000102030405060708091a1b1c1d1e1f 0 = some (0, 340282366920938463463374607431768211455) := by decide
example : get_ipv6_range 0x01 256 = none := by decide

/-- Masking with the truncated network mask keeps exactly the bits above
position `mi`: `net AND ((2^w - 1) >> mi << mi) = net / 2^mi * 2^mi`
whenever `net < 2^w`. -/
lemma mask_start_eq (w mi net : Nat) (hnet : net < 2 ^ w) :
    net &&& (((2 ^ w - 1) >>> mi) <<< mi) = net / 2 ^ mi * 2 ^ mi := by
  have hmul : net / 2 ^ mi * 2 ^ mi = (net >>> mi) <<< mi := by
    rw [Nat.shiftRight_eq_div_pow, Nat.shiftLeft_eq]
  rw [hmul]
  apply Nat.eq_of_testBit_eq
  intro j
  rcases le_or_lt mi j with hj | hj
  · have hadd : mi + (j - mi) = j := by omega
    simp only [Nat.testBit_land, Nat.testBit_shiftLeft, Nat.testBit_shiftRight,
      Nat.testBit_two_pow_sub_one, ge_iff_le, hj, hadd, decide_eq_true_eq,
      Bool.true_and, decide_True]
    rcases lt_or_le j w with hjw | hjw
    · simp [hjw]
    · have : net.testBit j = false := by
        apply Nat.testBit_lt_two_pow
        calc net < 2 ^ w := hnet
          _ ≤ 2 ^ j := Nat.pow_le_pow_right (by omega) hjw
      simp [this]
  · have hj' : ¬ mi ≤ j := by omega
    simp [Nat.testBit_land, Nat.testBit_shiftLeft, hj']

/-- Core arithmetic of `get_ipv4_range` / `get_ipv6_range` for an in-range
prefix: the start is the network address with its low `mi` host bits
cleared and the end adds the all-ones host part. -/
lemma range_core (w mi net : Nat) (hnet : net < 2 ^ w) :
    net &&& (((2 ^ w - 1) >>> mi) <<< mi) = net / 2 ^ mi * 2 ^ mi ∧
      (net / 2 ^ mi * 2 ^ mi) ||| ((1 <<< mi) - 1) = net / 2 ^ mi * 2 ^ mi + (2 ^ mi - 1) := by
  refine ⟨mask_start_eq w mi net hnet, ?_⟩
  rw [Nat.one_shiftLeft, Nat.mul_comm (net / 2 ^ mi) (2 ^ mi)]
  exact (Nat.mul_add_lt_is_or (Nat.sub_lt (Nat.pos_pow_of_pos mi (by omega)) (by omega)) _).symm

/-- In-range prefix lengths take the non-raising branch, with the shift
amount reduced to a natural number. -/
lemma get_ipv4_range_in_range (net : Nat) (p : Nat) (hp : p ≤ 32) :
    get_ipv4_range net (p : Int) =
      some (net &&& (((2 ^ 32 - 1) >>> (32 - p)) <<< (32 - p)),
        (net &&& (((2 ^ 32 - 1) >>> (32 - p)) <<< (32 - p))) ||| ((1 <<< (32 - p)) - 1)) := by
  have h1 : ¬ ((32 : Int) - (p : Int) < 0) := by omega
  have h2 : ((32 : Int) - (p : Int)).toNat = 32 - p := by omega
  simp only [get_ipv4_range, h1, if_false, h2]
  norm_num

/-- In-range prefix lengths take the non-raising branch (IPv6). -/
lemma get_ipv6_range_in_range (net : Nat) (p : Nat) (hp : p ≤ 128) :
    get_ipv6_range net (p : Int) =
      some (net &&& (((2 ^ 128 - 1) >>> (128 - p)) <<< (128 - p)),
        (net &&& (((2 ^ 128 - 1) >>> (128 - p)) <<< (128 - p))) ||| ((1 <<< (128 - p)) - 1)) := by
  have h1 : ¬ ((128 : Int) - (p : Int) < 0) := by omega
  have h2 : ((128 : Int) - (p : Int)).toNat = 128 - p := by omega
  simp only [get_ipv6_range, h1, if_false, h2]
  norm_num

/-- Range start/end in closed arithmetic form for an in-range prefix. -/
lemma get_ipv4_range_closed (net : Nat) (p : Nat) (hp : p ≤ 32) (hnet : net < 2 ^ 32) :
    get_ipv4_range net (p : Int) =
      some (net / 2 ^ (32 - p) * 2 ^ (32 - p),
        net / 2 ^ (32 - p) * 2 ^ (32 - p) + (2 ^ (32 - p) - 1)) := by
  obtain ⟨h1, h2⟩ := range_core 32 (32 - p) net hnet
  rw [get_ipv4_range_in_range net p hp, h1, h2]

/-- Range start/end in closed arithmetic form for an in-range prefix (IPv6). -/
lemma get_ipv6_range_closed (net : Nat) (p : Nat) (hp : p ≤ 128) (hnet : net < 2 ^ 128) :
    get_ipv6_range net (p : Int) =
      some (net / 2 ^ (128 - p) * 2 ^ (128 - p),
        net / 2 ^ (128 - p) * 2 ^ (128 - p) + (2 ^ (128 - p) - 1)) := by
  obtain ⟨h1, h2⟩ := range_core 128 (128 - p) net hnet
  rw [get_ipv6_range_in_range net p hp, h1, h2]

/-- C1 (counterexample): for a negative prefix length the range
computation does not fail — `get_ipv4_range(0, -1)` returns
`(0, 2^33 - 1)` normally, and `get_ipv6_range(0, -1)` returns
`(0, 2^129 - 1)`, contradicting the claim that every prefix length
outside the valid range yields an error. -/
theorem negative_prefix_no_error :
    get_ipv4_range 0 (-1) = some (0, 2 ^ 33 - 1) ∧
      get_ipv6_range 0 (-1) = some (0, 2 ^ 129 - 1) := by
  constructor <;> decide

/-- C1 (amended): the range computation fails (Python
`ValueError: negative shift count`) exactly when `prefix_len` exceeds the
address width — 32 for `get_ipv4_range`, 128 for `get_ipv6_range`; for
every other prefix length, negative ones included, it returns normally. -/
theorem invalid_prefix_error_iff :
    (∀ (net : Nat) (p : Int), get_ipv4_range net p = none ↔ 32 < p) ∧
      (∀ (net : Nat) (p : Int), get_ipv6_range net p = none ↔ 128 < p) := by
  constructor <;> intro net p <;>
    [simp only [get_ipv4_range]; simp only [get_ipv6_range]] <;>
    split <;> simp_all

/-- C1 (amended, witness): the failing branch at `prefix_len = 33` (IPv4)
and `prefix_len = 129` (IPv6). -/
theorem invalid_prefix_error_iff_witness :
    get_ipv4_range 5 33 = none ∧ get_ipv6_range 5 129 = none :=
  ⟨(invalid_prefix_error_iff.1 5 33).mpr (by decide),
    (invalid_prefix_error_iff.2 5 129).mpr (by decide)⟩

/-- C3: for every network address within the family width and every
prefix length in the valid range, the returned pair satisfies
`start AND (2^(width - prefix_len) - 1) = 0`, `start ≤ end` and
`end - start = 2^(width - prefix_len) - 1`. -/
theorem range_correct :
    (∀ net p : Nat, net < 2 ^ 32 → p ≤ 32 →
      ∃ s e, get_ipv4_range net (p : Int) = some (s, e) ∧
        s &&& ((1 <<< (32 - p)) - 1) = 0 ∧ s ≤ e ∧ e - s = 2 ^ (32 - p) - 1) ∧
    (∀ net p : Nat, net < 2 ^ 128 → p ≤ 128 →
      ∃ s e, get_ipv6_range net (p : Int) = some (s, e) ∧
        s &&& ((1 <<< (128 - p)) - 1) = 0 ∧ s ≤ e ∧ e - s = 2 ^ (128 - p) - 1) := by
  constructor
  · intro net p hnet hp
    refine ⟨_, _, get_ipv4_range_closed net p hp hnet, ?_, ?_, ?_⟩
    · rw [Nat.one_shiftLeft, Nat.and_pow_two_sub_one_eq_mod]
      exact Nat.mul_mod_left _ _
    · omega
    · omega
  · intro net p hnet hp
    refine ⟨_, _, get_ipv6_range_closed net p hp hnet, ?_, ?_, ?_⟩
    · rw [Nat.one_shiftLeft, Nat.and_pow_two_sub_one_eq_mod]
      exact Nat.mul_mod_left _ _
    · omega
    · omega

/-- C3 (witness): the properties at `net = 0xac100000`, `prefix_len = 12`
for IPv4 and `net = 1`, `prefix_len = 64` for IPv6. -/
theorem range_correct_witness :
    (∃ s e, get_ipv4_range 0xac100000 (12 : Int) = some (s, e) ∧
      s &&& ((1 <<< (32 - 12)) - 1) = 0 ∧ s ≤ e ∧ e - s = 2 ^ (32 - 12) - 1) ∧
    (∃ s e, get_ipv6_range 1 (64 : Int) = some (s, e) ∧
      s &&& ((1 <<< (128 - 64)) - 1) = 0 ∧ s ≤ e ∧ e - s = 2 ^ (128 - 64) - 1) :=
  ⟨range_correct.1 0xac100000 12 (by decide) (by decide),
    range_correct.2 1 64 (by decide) (by decide)⟩

/-- C4: prefix length 0 yields the full address space and prefix length
equal to the width yields the single-address range, for both families. -/
theorem range_boundary :
    (∀ x : Nat, x < 2 ^ 32 →
      get_ipv4_range x 0 = some (0, 0xffffffff) ∧ get_ipv4_range x 32 = some (x, x)) ∧
    (∀ x : Nat, x < 2 ^ 128 →
      get_ipv6_range x 0 = some (0, 2 ^ 128 - 1) ∧ get_ipv6_range x 128 = some (x, x)) := by
  constructor
  · intro x hx
    constructor
    · have h := get_ipv4_range_closed x 0 (by omega) hx
      rw [Nat.div_eq_of_lt hx] at h
      simpa using h
    · have h := get_ipv4_range_closed x 32 (by omega) hx
      simpa using h
  · intro x hx
    constructor
    · have h := get_ipv6_range_closed x 0 (by omega) hx
      rw [Nat.div_eq_of_lt hx] at h
      simpa using h
    · have h := get_ipv6_range_closed x 128 (by omega) hx
      simpa using h

/-- C4 (witness): the boundary behaviour at `x = 0xa1b2c3d4` (IPv4) and
`x = 0x000102030405060708091a1b1c1d1e1f` (IPv6). -/
theorem range_boundary_witness :
    (get_ipv4_range 0xa1b2c3d4 0 = some (0, 0xffffffff) ∧
      get_ipv4_range 0xa1b2c3d4 32 = some (0xa1b2c3d4, 0xa1b2c3d4)) ∧
    (get_ipv6_range 0x000102030405060708091a1b1c1d1e1f 0 = some (0, 2 ^ 128 - 1) ∧
      get_ipv6_range 0x000102030405060708091a1b1c1d1e1f 128 =
        some (0x000102030405060708091a1b1c1d1e1f, 0x000102030405060708091a1b1c1d1e1f)) :=
  ⟨range_boundary.1 0xa1b2c3d4 (by decide), range_boundary.2 _ (by decide)⟩

/-- C9: for every negative prefix length the range computation returns
normally with `(0, 2^(width - prefix_len) - 1)`, whose end exceeds the
family's address space, so the pair is not a same-family address range. -/
theorem negative_prefix_overflow :
    ∀ (net : Nat) (p : Int), p < 0 →
      (get_ipv4_range net p = some (0, 2 ^ (32 - p).toNat - 1) ∧
        2 ^ 32 - 1 < 2 ^ (32 - p).toNat - 1) ∧
      (get_ipv6_range net p = some (0, 2 ^ (128 - p).toNat - 1) ∧
        2 ^ 128 - 1 < 2 ^ (128 - p).toNat - 1) := by
  intro net p hp
  have h32 : ¬ ((32 : Int) - p < 0) := by omega
  have h128 : ¬ ((128 : Int) - p < 0) := by omega
  have hm32 : 32 < ((32 : Int) - p).toNat := by omega
  have hm128 : 128 < ((128 : Int) - p).toNat := by omega
  refine ⟨⟨?_, ?_⟩, ⟨?_, ?_⟩⟩
  · simp only [get_ipv4_range, h32, if_false]
    have hz : (0xffffffff : Nat) >>> ((32 : Int) - p).toNat = 0 := by
      rw [Nat.shiftRight_eq_div_pow]
      apply Nat.div_eq_of_lt
      calc (0xffffffff : Nat) < 2 ^ 32 := by decide
        _ ≤ 2 ^ ((32 : Int) - p).toNat := Nat.pow_le_pow_right (by omega) (by omega)
    rw [hz]
    simp [Nat.one_shiftLeft]
  · have : (2 : Nat) ^ 32 < 2 ^ ((32 : Int) - p).toNat := Nat.pow_lt_pow_right (by omega) hm32
    omega
  · simp only [get_ipv6_range, h128, if_false]
    have hz : (0xffffffffffffffffffffffffffffffff : Nat) >>> ((128 : Int) - p).toNat = 0 := by
      rw [Nat.shiftRight_eq_div_pow]
      apply Nat.div_eq_of_lt
      calc (0xffffffffffffffffffffffffffffffff : Nat) < 2 ^ 128 := by decide
        _ ≤ 2 ^ ((128 : Int) - p).toNat := Nat.pow_le_pow_right (by omega) (by omega)
    rw [hz]
    simp [Nat.one_shiftLeft]
  · have : (2 : Nat) ^ 128 < 2 ^ ((128 : Int) - p).toNat := Nat.pow_lt_pow_right (by omega) hm128
    omega

/-- C9 (witness): the overflowing ranges at `net = 0xffffffff`,
`prefix_len = -1`. -/
theorem negative_prefix_overflow_witness :
    (get_ipv4_range 0xffffffff (-1) = some (0, 2 ^ ((32 : Int) - (-1)).toNat - 1) ∧
      2 ^ 32 - 1 < 2 ^ ((32 : Int) - (-1)).toNat - 1) ∧
    (get_ipv6_range 0xffffffff (-1) = some (0, 2 ^ ((128 : Int) - (-1)).toNat - 1) ∧
      2 ^ 128 - 1 < 2 ^ ((128 : Int) - (-1)).toNat - 1) :=
  negative_prefix_overflow 0xffffffff (-1) (by decide)

/-- C10: the formatters are not total over the integers — outside
`[0, 2^32 - 1]` (resp. `[0, 2^128 - 1]`) `ipv4_bin2addr` (resp.
`ipv6_bin2addr`) raises a `struct.error` rather than truncating or
wrapping, and within those ranges both return a rendering normally. -/
theorem bin2addr_totality :
    (∀ n : Int, (n < 0 ∨ 2 ^ 32 ≤ n) → ipv4_bin2addr n = none) ∧
      (∀ n : Int, 0 ≤ n → n < 2 ^ 32 → ∃ s, ipv4_bin2addr n = some s) ∧
      (∀ n : Int, (n < 0 ∨ 2 ^ 128 ≤ n) → ipv6_bin2addr n = none) ∧
      (∀ n : Int, 0 ≤ n → n < 2 ^ 128 → ∃ s, ipv6_bin2addr n = some s) := by
  refine ⟨fun n h => ?_, fun n h1 h2 => ?_, fun n h => ?_, fun n h1 h2 => ?_⟩
  · simp only [ipv4_bin2addr, if_pos h]
  · have : ¬ (n < 0 ∨ (2 : Int) ^ 32 ≤ n) := by push_neg; omega
    exact ⟨inet_ntop4 (v4bytes n.toNat), by simp only [ipv4_bin2addr, if_neg this]⟩
  · simp only [ipv6_bin2addr, if_pos h]
  · have : ¬ (n < 0 ∨ (2 : Int) ^ 128 ≤ n) := by push_neg; omega
    exact ⟨ntop6 (v6words n.toNat), by simp only [ipv6_bin2addr, if_neg this]⟩

/-- C10 (witness): failure just past each width and past zero, success at
an in-range value of each family. -/
theorem bin2addr_totality_witness :
    ipv4_bin2addr 4294967296 = none ∧ (∃ s, ipv4_bin2addr 4294967295 = some s) ∧
      ipv6_bin2addr (-1) = none ∧ (∃ s, ipv6_bin2addr 340282366920938463463374607431768211455 = some s) :=
  ⟨bin2addr_totality.1 4294967296 (by decide),
    bin2addr_totality.2.1 4294967295 (by decide) (by decide),
    bin2addr_totality.2.2.1 (-1) (by decide),
    bin2addr_totality.2.2.2 340282366920938463463374607431768211455 (by decide) (by decide)⟩

/-- C7: the IPv4 parser rejects an out-of-range octet and rejects IPv6
forms even when they embed a dotted quad; the IPv6 parser rejects an
IPv4-only string.  Each failure is the `socket.error` of `inet_pton`,
modelled as `none`. -/
theorem cross_family_rejection :
    parse_ipv4 ("999.999.999.999".data) = none ∧
      parse_ipv4 ("::ffff:192.168.0.1".data) = none ∧
      parse_ipv6 ("174.26.72.88".data) = none := by
  refine ⟨by decide, by decide, by decide⟩

/-- C8: the five literal scenarios of the specification, evaluated on the
embedded code. -/
theorem literal_scenarios :
    parse_ipv4 ("174.26.72.88".data) = some 2920958040 ∧
      parse_ipv6 ("::".data) = some 0 ∧
      get_ipv4_range 0xac100000 12 = some (2886729728, 2887778303) ∧
      ipv6_bin2addr 0x01020304050607080910111213141516 =
        some ("102:304:506:708:910:1112:1314:1516".data) ∧
      ipv6_bin2addr 0xffff000000000dead00000beef000000 =
        some ("ffff::dea:d000:be:ef00:0".data) := by
  refine ⟨by decide, by decide, by decide, by decide, by decide⟩

/-- C5: family auto-detection tries `parse_ipv4` first — a string it
accepts is always reported as IPv4 — and only on its failure falls back
to `parse_ipv6`, whose own failure is what propagates; in particular
`parse_ipaddr("1.2.3.4")` is `(False, 16909060)`. -/
theorem family_autodetect :
    (∀ addr v, parse_ipv4 addr = some v →
      parse_ipaddr addr none = some (.tagged false v)) ∧
      (∀ addr, parse_ipv4 addr = none →
        parse_ipaddr addr none = (parse_ipv6 addr).map (.tagged true)) ∧
      parse_ipaddr ("1.2.3.4".data) none = some (.tagged false 16909060) := by
  refine ⟨fun addr v h => ?_, fun addr h => ?_, by decide⟩
  · simp only [parse_ipaddr, h]
  · simp only [parse_ipaddr, h]

/-- C5 (witness): the IPv4-first branch on `"1.2.3.4"` and the IPv6
fallback on `"dead::beef"`, where the IPv4 parse fails. -/
theorem family_autodetect_witness :
    parse_ipaddr ("1.2.3.4".data) none = some (.tagged false 16909060) ∧
      parse_ipaddr ("dead::beef".data) none =
        (parse_ipv6 ("dead::beef".data)).map (.tagged true) :=
  ⟨family_autodetect.1 ("1.2.3.4".data) 16909060 (by decide),
    family_autodetect.2.1 ("dead::beef".data) (by decide)⟩

/-- Digit characters below ten are decimal digits with the same value. -/
lemma digitChar_dec (d : Nat) (hd : d < 10) :
    isDecDigitChar (Nat.digitChar d) = true ∧ decDigitVal (Nat.digitChar d) = d := by
  interval_cases d <;> exact ⟨by decide, by decide⟩

/-- Digit characters below sixteen are hex digits with the same value. -/
lemma digitChar_hexVal (d : Nat) (hd : d < 16) : hexVal (Nat.digitChar d) = some d := by
  interval_cases d <;> decide

/-- One unfolding step of `decDigitsAux` at positive fuel. -/
lemma decDigitsAux_succ (f n : Nat) : decDigitsAux (f + 1) n =
    if n < 10 then [Nat.digitChar n]
    else decDigitsAux f (n / 10) ++ [Nat.digitChar (n % 10)] := rfl

/-- One unfolding step of `hexDigitsAux` at positive fuel. -/
lemma hexDigitsAux_succ (f n : Nat) : hexDigitsAux (f + 1) n =
    if n < 16 then [Nat.digitChar n]
    else hexDigitsAux f (n / 16) ++ [Nat.digitChar (n % 16)] := rfl

/-- The fuel of `decDigitsAux` is irrelevant once it exceeds the input. -/
lemma decDigitsAux_fuel (f1 : Nat) : ∀ f2 n, n < f1 → n < f2 →
    decDigitsAux f1 n = decDigitsAux f2 n := by
  induction f1 with
  | zero => omega
  | succ f ih =>
    intro f2 n h1 h2
    cases f2 with
    | zero => omega
    | succ f2 =>
      by_cases hn : n < 10
      · simp [decDigitsAux, hn]
      · have hd : n / 10 < n := Nat.div_lt_self (by omega) (by omega)
        simp only [decDigitsAux, hn, if_false]
        rw [ih f2 (n / 10) (by omega) (by omega)]

/-- The fuel of `hexDigitsAux` is irrelevant once it exceeds the input. -/
lemma hexDigitsAux_fuel (f1 : Nat) : ∀ f2 n, n < f1 → n < f2 →
    hexDigitsAux f1 n = hexDigitsAux f2 n := by
  induction f1 with
  | zero => omega
  | succ f ih =>
    intro f2 n h1 h2
    cases f2 with
    | zero => omega
    | succ f2 =>
      by_cases hn : n < 16
      · simp [hexDigitsAux, hn]
      · have hd : n / 16 < n := Nat.div_lt_self (by omega) (by omega)
        simp only [hexDigitsAux, hn, if_false]
        rw [ih f2 (n / 16) (by omega) (by omega)]

/-- Single decimal digit rendering. -/
lemma decDigits_lt (n : Nat) (h : n < 10) : decDigits n = [Nat.digitChar n] := by
  simp [decDigits, decDigitsAux, h]

/-- Multi-digit decimal rendering peels off the last digit. -/
lemma decDigits_ge (n : Nat) (h : 10 ≤ n) :
    decDigits n = decDigits (n / 10) ++ [Nat.digitChar (n % 10)] := by
  have h1 : ¬ n < 10 := by omega
  have hd : n / 10 < n := Nat.div_lt_self (by omega) (by omega)
  show decDigitsAux (n + 1) n = decDigitsAux (n / 10 + 1) (n / 10) ++ [Nat.digitChar (n % 10)]
  rw [decDigitsAux_succ, if_neg h1, decDigitsAux_fuel n (n / 10 + 1) (n / 10) (by omega) (by omega)]

/-- Single hex digit rendering. -/
lemma hexDigits_lt (n : Nat) (h : n < 16) : hexDigits n = [Nat.digitChar n] := by
  simp [hexDigits, hexDigitsAux, h]

/-- Multi-digit hex rendering peels off the last digit. -/
lemma hexDigits_ge (n : Nat) (h : 16 ≤ n) :
    hexDigits n = hexDigits (n / 16) ++ [Nat.digitChar (n % 16)] := by
  have h1 : ¬ n < 16 := by omega
  have hd : n / 16 < n := Nat.div_lt_self (by omega) (by omega)
  show hexDigitsAux (n + 1) n = hexDigitsAux (n / 16 + 1) (n / 16) ++ [Nat.digitChar (n % 16)]
  rw [hexDigitsAux_succ, if_neg h1, hexDigitsAux_fuel n (n / 16 + 1) (n / 16) (by omega) (by omega)]

/-- Consuming the decimal spelling of an octet value advances the
`inet_pton4` loop to the state that has the octet accumulated. -/
lemma pton4_octet (n : Nat) (hn : n ≤ 255) :
    ∀ (done : List Nat) (oct : Nat) (rest : List Char), oct < 4 →
      pton4Loop (decDigits n ++ rest) ⟨done, 0, false, oct⟩ =
        pton4Loop rest ⟨done, n, true, oct + 1⟩ := by
  induction n using Nat.strong_induction_on with
  | _ n ih =>
    intro done oct rest hoct
    rcases lt_or_le n 10 with h10 | h10
    · rw [decDigits_lt n h10, List.cons_append, List.nil_append]
      obtain ⟨hd1, hd2⟩ := digitChar_dec n h10
      have hno : ¬ (oct + 1 > 4) := by omega
      simp [pton4Loop, hd1, hd2, hno, hn]
    · have hdlt : n / 10 < n := Nat.div_lt_self (by omega) (by omega)
      rw [decDigits_ge n h10, List.append_assoc, List.cons_append, List.nil_append,
        ih (n / 10) hdlt (by omega) done oct _ hoct]
      obtain ⟨hd1, hd2⟩ := digitChar_dec (n % 10) (Nat.mod_lt _ (by omega))
      have hcur10 : ¬ (n / 10 = 0) := by omega
      have hle : ¬ (n / 10 * 10 + n % 10 > 255) := by omega
      have heq : n / 10 * 10 + n % 10 = n := by omega
      have hle2 : ¬ (255 < n) := by omega
      simp [pton4Loop, hd1, hd2, hcur10, hle, heq, hle2]

/-- A separating `.` after a completed octet commits it. -/
lemma pton4_dot (done : List Nat) (cur oct : Nat) (rest : List Char) (ho : ¬ oct = 4) :
    pton4Loop ('.' :: rest) ⟨done, cur, true, oct⟩ =
      pton4Loop rest ⟨done ++ [cur], 0, false, oct⟩ := by
  have hdig : isDecDigitChar '.' = false := by decide
  simp [pton4Loop, hdig, ho]

/-- The dotted-quad spelling of four octets parses back to those bytes. -/
lemma pton4_quad (a b c d : Nat) (ha : a ≤ 255) (hb : b ≤ 255) (hc : c ≤ 255)
    (hd : d ≤ 255) : inet_pton4 (inet_ntop4 [a, b, c, d]) = some [a, b, c, d] := by
  simp only [inet_pton4, inet_ntop4, List.append_assoc, List.cons_append, List.nil_append]
  rw [pton4_octet a ha [] 0 _ (by omega), pton4_dot _ _ _ _ (by omega)]
  show pton4Loop (decDigits b ++ '.' :: (decDigits c ++ '.' :: decDigits d))
    ⟨[a], 0, false, 1⟩ = some [a, b, c, d]
  rw [pton4_octet b hb [a] 1 _ (by omega), pton4_dot _ _ _ _ (by omega)]
  show pton4Loop (decDigits c ++ '.' :: decDigits d) ⟨[a, b], 0, false, 2⟩ = some [a, b, c, d]
  rw [pton4_octet c hc [a, b] 2 _ (by omega), pton4_dot _ _ _ _ (by omega)]
  show pton4Loop (decDigits d) ⟨[a, b, c], 0, false, 3⟩ = some [a, b, c, d]
  have hfin := pton4_octet d hd [a, b, c] 3 [] (by omega)
  rw [List.append_nil] at hfin
  rw [hfin]
  simp [pton4Loop]

/-- `struct.unpack('!L')` of four bytes in closed form. -/
lemma bytesToNat_quad (a b c d : Nat) :
    bytesToNat [a, b, c, d] = ((a * 256 + b) * 256 + c) * 256 + d := by
  simp [bytesToNat]

/-- IPv4 round trip: formatting then parsing any 32-bit value is the
identity. -/
lemma roundtrip_v4 (v : Nat) (hv : v < 2 ^ 32) :
    (ipv4_bin2addr (v : Int)).bind parse_ipv4 = some v := by
  have hneg : ¬ ((v : Int) < 0 ∨ (2 : Int) ^ 32 ≤ (v : Int)) := by
    push_neg
    constructor
    · exact_mod_cast Nat.zero_le v
    · exact_mod_cast hv
  simp only [ipv4_bin2addr, if_neg hneg, Option.some_bind, Int.toNat_natCast]
  rw [parse_ipv4, v4bytes,
    pton4_quad _ _ _ _ (by omega) (by omega) (by omega) (by omega)]
  simp only [Option.map_some', bytesToNat_quad, Option.some.injEq]
  omega

/-- Unfolding lemmas for the accumulators. -/
lemma hAcc_nil (v : Nat) : hAcc v [] = v := rfl

/-- Accumulating one more hex character. -/
lemma hAcc_cons (v : Nat) (c : Char) (ds : List Char) :
    hAcc v (c :: ds) = hAcc (v * 16 + (hexVal c).getD 0) ds := rfl

/-- Accumulating over an appended digit list. -/
lemma hAcc_append (v : Nat) (xs ys : List Char) :
    hAcc v (xs ++ ys) = hAcc (hAcc v xs) ys := by
  simp [hAcc, List.foldl_append]

/-- The hex accumulator never decreases. -/
lemma hAcc_ge (ds : List Char) : ∀ v, v ≤ hAcc v ds := by
  induction ds with
  | nil => intro v; simp [hAcc]
  | cons c ds ih =>
    intro v
    rw [hAcc_cons]
    exact le_trans (by omega) (ih _)

/-- Every character of a hex rendering is a hex digit. -/
lemma hexDigits_all (n : Nat) : ∀ c ∈ hexDigits n, (hexVal c).isSome := by
  induction n using Nat.strong_induction_on with
  | _ n ih =>
    rcases lt_or_le n 16 with h | h
    · rw [hexDigits_lt n h]
      intro c hc
      simp only [List.mem_singleton] at hc
      subst hc
      rw [digitChar_hexVal n h]
      rfl
    · rw [hexDigits_ge n h]
      intro c hc
      rcases List.mem_append.mp hc with hc | hc
      · exact ih (n / 16) (Nat.div_lt_self (by omega) (by omega)) c hc
      · simp only [List.mem_singleton] at hc
        subst hc
        rw [digitChar_hexVal (n % 16) (Nat.mod_lt _ (by omega))]
        rfl

/-- Accumulating the hex rendering of `n` from zero recovers `n`. -/
lemma hAcc_hexDigits (n : Nat) : hAcc 0 (hexDigits n) = n := by
  suffices h : ∀ m : Nat, m ≤ n → hAcc 0 (hexDigits m) = m from h n le_rfl
  intro m hm
  clear hm
  induction m using Nat.strong_induction_on with
  | _ m ih =>
    rcases lt_or_le m 16 with h | h
    · rw [hexDigits_lt m h, hAcc_cons, hAcc_nil, digitChar_hexVal m h]
      simp
    · rw [hexDigits_ge m h, hAcc_append, ih (m / 16) (Nat.div_lt_self (by omega) (by omega)),
        hAcc_cons, hAcc_nil, digitChar_hexVal (m % 16) (Nat.mod_lt _ (by omega))]
      show m / 16 * 16 + m % 16 = m
      omega

/-- A hex rendering is never empty. -/
lemma hexDigits_ne_nil (n : Nat) : hexDigits n ≠ [] := by
  rcases lt_or_le n 16 with h | h
  · simp [hexDigits_lt n h]
  · simp [hexDigits_ge n h]

/-- Consuming a list of hex-digit characters accumulates their value,
provided the running value never exceeds `0xffff`. -/
lemma pton6_hexchars (ds : List Char) : ∀ (st : Pton6State) (rest : List Char),
    (∀ c ∈ ds, (hexVal c).isSome) → hAcc st.val ds ≤ 65535 →
    pton6Loop (ds ++ rest) st =
      pton6Loop rest ⟨st.ws, st.colonp, st.saw || !ds.isEmpty, hAcc st.val ds,
        ds.reverse ++ st.tok⟩ := by
  induction ds with
  | nil =>
    intro st rest _ _
    simp [hAcc_nil]
  | cons c ds ih =>
    intro st rest hdig hbound
    obtain ⟨d, hd⟩ := Option.isSome_iff_exists.mp (hdig c (by simp))
    have hgetD : (hexVal c).getD 0 = d := by rw [hd]; rfl
    rw [hAcc_cons, hgetD] at hbound ⊢
    have hnew : st.val * 16 + d ≤ 65535 := le_trans (hAcc_ge ds _) hbound
    have hnew' : ¬ (st.val * 16 + d > 65535) := by omega
    rw [List.cons_append]
    show pton6Loop (c :: (ds ++ rest)) st = _
    simp only [pton6Loop, hd, hnew', if_false]
    rw [ih ⟨st.ws, st.colonp, true, st.val * 16 + d, c :: st.tok⟩ rest
      (fun c hc => hdig c (by simp [hc])) hbound]
    simp [List.reverse_cons]

/-- Consuming one whole hex group from a fresh-token state. -/
lemma pton6_group (g : Nat) (hg : g < 65536) (ws : List Nat) (colonp : Option Nat)
    (saw : Bool) (tok rest : List Char) :
    pton6Loop (hexDigits g ++ rest) ⟨ws, colonp, saw, 0, tok⟩ =
      pton6Loop rest ⟨ws, colonp, true, g, (hexDigits g).reverse ++ tok⟩ := by
  rw [pton6_hexchars (hexDigits g) _ _ (hexDigits_all g)]
  · have hne : (hexDigits g).isEmpty = false := by
      rw [List.isEmpty_eq_false]
      exact hexDigits_ne_nil g
    simp [hAcc_hexDigits, hne]
  · show hAcc 0 (hexDigits g) ≤ 65535
    rw [hAcc_hexDigits]
    omega

/-- A `:` after a pending group commits it and resets the token state. -/
lemma pton6_colon_commit (ws : List Nat) (colonp : Option Nat) (v : Nat)
    (tok rest : List Char) (hlen : ¬ 8 ≤ ws.length) :
    pton6Loop (':' :: rest) ⟨ws, colonp, true, v, tok⟩ =
      pton6Loop rest ⟨ws ++ [v], colonp, false, 0, []⟩ := by
  have hcol : hexVal ':' = none := by decide
  simp [pton6Loop, hcol, hlen]

/-- A `:` with no pending group records the one allowed `::`. -/
lemma pton6_colon_set (ws : List Nat) (v : Nat) (tok rest : List Char) :
    pton6Loop (':' :: rest) ⟨ws, none, false, v, tok⟩ =
      pton6Loop rest ⟨ws, some ws.length, false, v, []⟩ := by
  have hcol : hexVal ':' = none := by decide
  simp [pton6Loop, hcol]

/-- No further words are committed by an empty group list. -/
lemma commitWords_nil (v : Nat) : commitWords v [] = [] := rfl

/-- Word commits of a group list, one step. -/
lemma commitWords_cons (v g : Nat) (gs : List Nat) :
    commitWords v (g :: gs) = v :: commitWords g gs := rfl

/-- As many words are committed as there are groups fed. -/
lemma commitWords_length (gs : List Nat) : ∀ v, (commitWords v gs).length = gs.length := by
  induction gs with
  | nil => intro v; rfl
  | cons g gs ih => intro v; simp [commitWords_cons, ih]

/-- Committing the pending value after the committed words restores the
whole fed sequence. -/
lemma commitWords_lastVal (gs : List Nat) : ∀ v,
    commitWords v gs ++ [lastVal v gs] = v :: gs := by
  induction gs with
  | nil => intro v; rfl
  | cons g gs ih => intro v; simp [commitWords_cons, lastVal, ih]

/-- Consuming `:`-prefixed groups commits the pending value and each group
but the last, which stays pending. -/
lemma pton6_joinPre (gs : List Nat) : ∀ (ws : List Nat) (colonp : Option Nat) (v : Nat)
    (tok rest : List Char), (∀ g ∈ gs, g < 65536) → ws.length + gs.length ≤ 8 →
    pton6Loop (joinPre gs ++ rest) ⟨ws, colonp, true, v, tok⟩ =
      pton6Loop rest ⟨ws ++ commitWords v gs, colonp, true, lastVal v gs, lastTok tok gs⟩ := by
  induction gs with
  | nil =>
    intro ws colonp v tok rest _ _
    simp [joinPre, commitWords_nil, lastVal, lastTok]
  | cons g gs ih =>
    intro ws colonp v tok rest hg hlen
    have hjp : joinPre (g :: gs) = ':' :: (hexDigits g ++ joinPre gs) := rfl
    rw [hjp, List.cons_append, pton6_colon_commit _ _ _ _ _ (by simp at hlen ⊢; omega),
      List.append_assoc, pton6_group g (hg g (by simp)) _ _ _ _ _,
      ih _ _ _ _ _ (fun x hx => hg x (by simp [hx])) (by simp at hlen ⊢; omega)]
    simp [commitWords_cons, lastVal, lastTok, List.append_assoc]

/-- A string not starting with `:` passes the leading-`::` check whole. -/
lemma pton6Start_ne (c : Char) (s : List Char) (hc : ¬ c = ':') :
    pton6Start (c :: s) = some (c :: s) := by
  simp [pton6Start, hc]

/-- A string starting with a hex group passes the leading-`::` check. -/
lemma pton6Start_hex (g : Nat) (s : List Char) :
    pton6Start (hexDigits g ++ s) = some (hexDigits g ++ s) := by
  obtain ⟨c, cs, hcs⟩ := List.exists_cons_of_ne_nil (hexDigits_ne_nil g)
  have hcmem : (hexVal c).isSome := hexDigits_all g c (by rw [hcs]; simp)
  have hcne : ¬ c = ':' := by
    intro h
    rw [h] at hcmem
    simp [show hexVal ':' = none from by decide] at hcmem
  rw [hcs, List.cons_append, pton6Start_ne c _ hcne]

/-- Every character of a decimal rendering is a decimal digit. -/
lemma decDigits_all (n : Nat) : ∀ c ∈ decDigits n, isDecDigitChar c = true := by
  induction n using Nat.strong_induction_on with
  | _ n ih =>
    rcases lt_or_le n 10 with h | h
    · rw [decDigits_lt n h]
      intro c hc
      simp only [List.mem_singleton] at hc
      subst hc
      exact (digitChar_dec n h).1
    · rw [decDigits_ge n h]
      intro c hc
      rcases List.mem_append.mp hc with hc | hc
      · exact ih (n / 10) (Nat.div_lt_self (by omega) (by omega)) c hc
      · simp only [List.mem_singleton] at hc
        subst hc
        exact (digitChar_dec (n % 10) (Nat.mod_lt _ (by omega))).1

/-- A decimal digit character is in particular a hex digit character. -/
lemma decDigit_hexable (c : Char) (h : isDecDigitChar c = true) : (hexVal c).isSome := by
  have h' : '0' ≤ c ∧ c ≤ '9' := by
    rw [isDecDigitChar, Bool.and_eq_true] at h
    exact ⟨of_decide_eq_true h.1, of_decide_eq_true h.2⟩
  simp [hexVal, h']

/-- A decimal rendering is never empty. -/
lemma decDigits_ne_nil (n : Nat) : decDigits n ≠ [] := by
  rcases lt_or_le n 10 with h | h
  · simp [decDigits_lt n h]
  · simp [decDigits_ge n h]

/-- Reading the decimal spelling of an octet as hex digits stays within a
16-bit group (at most three digits, each at most nine). -/
lemma hAcc_decDigits_le (a : Nat) (ha : a ≤ 255) : hAcc 0 (decDigits a) ≤ 65535 := by
  revert ha
  revert a
  decide

/-- A `.` hands the whole current token to the embedded `inet_pton4` and
finishes. -/
lemma pton6_dot (ws : List Nat) (colonp : Option Nat) (saw : Bool) (v : Nat)
    (tok rest : List Char) (hlen : ws.length ≤ 6) (bs : List Nat)
    (hp4 : inet_pton4 (tok.reverse ++ '.' :: rest) = some bs) :
    pton6Loop ('.' :: rest) ⟨ws, colonp, saw, v, tok⟩ =
      pton6Finish ⟨ws ++ bytesToWords bs, colonp, false, v, tok⟩ := by
  have hdot : hexVal '.' = none := by decide
  have hne : ¬ ('.' : Char) = ':' := by decide
  simp [pton6Loop, hdot, hne, hlen, hp4]

/-- Eight plain hex groups joined by `:` parse back to those words. -/
lemma pton6_full (gs : List Nat) (hlen : gs.length = 8) (hg : ∀ g ∈ gs, g < 65536) :
    inet_pton6 (hexJoin gs) = some gs := by
  obtain ⟨g, gs', rfl⟩ : ∃ g gs', gs = g :: gs' := by
    cases gs with
    | nil => simp at hlen
    | cons g gs' => exact ⟨g, gs', rfl⟩
  have hj : hexJoin (g :: gs') = hexDigits g ++ joinPre gs' := rfl
  rw [inet_pton6, hj, pton6Start_hex]
  show pton6Loop (hexDigits g ++ joinPre gs') ⟨[], none, false, 0, []⟩ = _
  rw [pton6_group g (hg g (by simp)) _ _ _ _ _]
  have hrest := pton6_joinPre gs' [] none g ((hexDigits g).reverse ++ []) []
    (fun x hx => hg x (by simp [hx])) (by simp at hlen ⊢; omega)
  rw [List.append_nil] at hrest
  rw [hrest]
  have hlen' : (commitWords g gs').length = 7 := by
    rw [commitWords_length]
    simp at hlen
    omega
  show pton6Finish _ = _
  rw [pton6Finish]
  have h8 : ¬ (true = true ∧ 8 ≤ ([] ++ commitWords g gs').length) := by
    simp [hlen']
  rw [if_neg h8]
  simp only [List.nil_append, if_true]
  rw [commitWords_lastVal]
  have : (g :: gs').length = 8 := hlen
  simp [this]

/-- A compressed spelling — optional leading groups, `::`, optional
trailing groups — parses back to the words with the gap zero-filled. -/
lemma pton6_compressed (pre post : List Nat) (hpre : ∀ g ∈ pre, g < 65536)
    (hpost : ∀ g ∈ post, g < 65536) (hlen : pre.length + post.length ≤ 6) :
    inet_pton6 (hexJoin pre ++ ':' :: (joinPre post ++ (if post.isEmpty then [':'] else []))) =
      some (pre ++ List.replicate (8 - (pre.length + post.length)) 0 ++ post) := by
  cases pre with
  | nil =>
    cases post with
    | nil =>
      show inet_pton6 [':', ':'] = _
      rw [inet_pton6]
      have hstart : pton6Start [':', ':'] = some [':'] := by decide
      rw [hstart]
      show pton6Loop [':'] ⟨[], none, false, 0, []⟩ = _
      rw [pton6_colon_set]
      show pton6Finish _ = _
      rw [pton6Finish]
      simp
    | cons q qs =>
      have hq : q < 65536 := hpost q (by simp)
      have hqs : ∀ x ∈ qs, x < 65536 := fun x hx => hpost x (by simp [hx])
      have hsh : hexJoin [] ++ ':' :: (joinPre (q :: qs) ++ (if (q :: qs).isEmpty then [':'] else [])) =
          ':' :: ':' :: (hexDigits q ++ joinPre qs) := by
        simp [hexJoin, joinPre]
      rw [hsh, inet_pton6]
      have hstart : pton6Start (':' :: ':' :: (hexDigits q ++ joinPre qs)) =
          some (':' :: (hexDigits q ++ joinPre qs)) := by
        simp [pton6Start]
      rw [hstart]
      show pton6Loop (':' :: (hexDigits q ++ joinPre qs)) ⟨[], none, false, 0, []⟩ = _
      rw [pton6_colon_set, pton6_group q hq _ _ _ _ _]
      show pton6Loop (joinPre qs) ⟨[], some 0, true, q, (hexDigits q).reverse ++ []⟩ = _
      have hrest := pton6_joinPre qs [] (some 0) q ((hexDigits q).reverse ++ []) [] hqs
        (by simp at hlen ⊢; omega)
      rw [List.append_nil] at hrest
      rw [hrest]
      show pton6Finish _ = _
      rw [pton6Finish]
      have hcl : (commitWords q qs).length = qs.length := commitWords_length qs q
      have h8 : ¬ (true = true ∧ 8 ≤ ([] ++ commitWords q qs).length) := by
        simp only [List.nil_append, hcl]
        simp at hlen
        omega
      rw [if_neg h8]
      simp only [List.nil_append, if_true]
      rw [commitWords_lastVal]
      have hne8 : ¬ ((q :: qs).length = 8) := by
        simp at hlen ⊢
        omega
      rw [if_neg hne8]
      simp
  | cons p ps =>
    have hp : p < 65536 := hpre p (by simp)
    have hps : ∀ x ∈ ps, x < 65536 := fun x hx => hpre x (by simp [hx])
    have hj : hexJoin (p :: ps) = hexDigits p ++ joinPre ps := rfl
    rw [inet_pton6, hj, List.append_assoc, pton6Start_hex]
    show pton6Loop (hexDigits p ++ (joinPre ps ++ ':' ::
      (joinPre post ++ if post.isEmpty = true then [':'] else []))) ⟨[], none, false, 0, []⟩ = _
    rw [pton6_group p hp _ _ _ _ _, pton6_joinPre ps _ _ _ _ _ hps (by simp at hlen ⊢; omega),
      pton6_colon_commit _ _ _ _ _ (by rw [List.nil_append, commitWords_length]; simp at hlen; omega)]
    rw [List.nil_append, commitWords_lastVal]
    cases post with
    | nil =>
      show pton6Loop [':'] _ = _
      rw [pton6_colon_set]
      show pton6Finish _ = _
      have hne8 : ¬ (ps.length = 7) := by simp at hlen; omega
      simp [pton6Finish, hne8]
    | cons q qs =>
      have hq : q < 65536 := hpost q (by simp)
      have hqs : ∀ x ∈ qs, x < 65536 := fun x hx => hpost x (by simp [hx])
      have hsh : joinPre (q :: qs) ++ (if (q :: qs).isEmpty then [':'] else []) =
          ':' :: (hexDigits q ++ (joinPre qs ++ [])) := by
        simp [joinPre]
      rw [hsh, pton6_colon_set, pton6_group q hq _ _ _ _ _,
        pton6_joinPre qs _ _ _ _ _ hqs (by simp at hlen ⊢; omega)]
      show pton6Finish _ = _
      rw [pton6Finish]
      have hcl : (commitWords q qs).length = qs.length := commitWords_length qs q
      have h8 : ¬ (true = true ∧ 8 ≤ ((p :: ps) ++ commitWords q qs).length) := by
        simp only [List.length_append, List.length_cons, hcl]
        simp at hlen
        omega
      rw [if_neg h8]
      simp only [if_true]
      rw [List.append_assoc, commitWords_lastVal]
      have hne8 : ¬ (((p :: ps) ++ q :: qs).length = 8) := by
        simp at hlen ⊢
        omega
      rw [if_neg hne8]
      have htake : ((p :: ps) ++ q :: qs).take (p :: ps).length = p :: ps :=
        List.take_left _ _
      have hdrop : ((p :: ps) ++ q :: qs).drop (p :: ps).length = q :: qs :=
        List.drop_left _ _
      rw [htake, hdrop]
      simp at hlen ⊢
      omega

/-- Words made of the four bytes of an embedded dotted quad. -/
lemma bytesToWords_quad (a b c d : Nat) :
    bytesToWords [a, b, c, d] = [a * 256 + b, c * 256 + d] := rfl

/-- Consuming the decimal spelling of the first embedded octet as hex
digits, ending on the token holding exactly that spelling. -/
lemma pton6_decoctet (a : Nat) (ha : a ≤ 255) (ws : List Nat) (colonp : Option Nat)
    (saw : Bool) (rest : List Char) :
    pton6Loop (decDigits a ++ rest) ⟨ws, colonp, saw, 0, []⟩ =
      pton6Loop rest ⟨ws, colonp, true, hAcc 0 (decDigits a), (decDigits a).reverse⟩ := by
  rw [pton6_hexchars (decDigits a) _ _
    (fun c hc => decDigit_hexable c (decDigits_all a c hc)) (hAcc_decDigits_le a ha)]
  have hne : (decDigits a).isEmpty = false := by
    rw [List.isEmpty_eq_false]
    exact decDigits_ne_nil a
  simp [hne]

/-- The `::a.b.c.d` encapsulated spelling parses to six zero words and the
two words packing the quad. -/
lemma pton6_embedded6 (a b c d : Nat) (ha : a ≤ 255) (hb : b ≤ 255) (hc : c ≤ 255)
    (hd : d ≤ 255) :
    inet_pton6 (':' :: ':' :: inet_ntop4 [a, b, c, d]) =
      some (List.replicate 6 0 ++ [a * 256 + b, c * 256 + d]) := by
  rw [inet_pton6]
  have hstart : pton6Start (':' :: ':' :: inet_ntop4 [a, b, c, d]) =
      some (':' :: inet_ntop4 [a, b, c, d]) := by
    simp [pton6Start]
  rw [hstart]
  show pton6Loop (':' :: inet_ntop4 [a, b, c, d]) ⟨[], none, false, 0, []⟩ = _
  rw [pton6_colon_set]
  simp only [inet_ntop4, List.append_assoc, List.cons_append, List.nil_append, List.length_nil]
  rw [pton6_decoctet a ha _ _ _ _,
    pton6_dot _ _ _ _ _ _ (by simp) [a, b, c, d]
      (by
        rw [List.reverse_reverse]
        have h := pton4_quad a b c d ha hb hc hd
        simp only [inet_ntop4, List.append_assoc, List.cons_append, List.nil_append] at h
        exact h),
    bytesToWords_quad]
  rw [pton6Finish]
  simp

/-- The `::ffff:a.b.c.d` encapsulated spelling parses to five zero words,
`0xffff` and the two words packing the quad. -/
lemma pton6_embedded5 (a b c d : Nat) (ha : a ≤ 255) (hb : b ≤ 255) (hc : c ≤ 255)
    (hd : d ≤ 255) :
    inet_pton6 (':' :: ':' :: (hexDigits 65535 ++ ':' :: inet_ntop4 [a, b, c, d])) =
      some (List.replicate 5 0 ++ [65535, a * 256 + b, c * 256 + d]) := by
  rw [inet_pton6]
  have hstart : pton6Start (':' :: ':' :: (hexDigits 65535 ++ ':' :: inet_ntop4 [a, b, c, d])) =
      some (':' :: (hexDigits 65535 ++ ':' :: inet_ntop4 [a, b, c, d])) := by
    simp [pton6Start]
  rw [hstart]
  show pton6Loop (':' :: (hexDigits 65535 ++ ':' :: inet_ntop4 [a, b, c, d]))
    ⟨[], none, false, 0, []⟩ = _
  rw [pton6_colon_set]
  show pton6Loop (hexDigits 65535 ++ ':' :: inet_ntop4 [a, b, c, d])
    ⟨[], some 0, false, 0, []⟩ = _
  rw [pton6_group 65535 (by omega) _ _ _ _ _,
    pton6_colon_commit _ _ _ _ _ (by simp)]
  simp only [inet_ntop4, List.append_assoc, List.cons_append, List.nil_append, List.length_nil]
  rw [pton6_decoctet a ha _ _ _ _,
    pton6_dot _ _ _ _ _ _ (by simp) [a, b, c, d]
      (by
        rw [List.reverse_reverse]
        have h := pton4_quad a b c d ha hb hc hd
        simp only [inet_ntop4, List.append_assoc, List.cons_append, List.nil_append] at h
        exact h),
    bytesToWords_quad]
  rw [pton6Finish]
  simp

/-- Both updated-best candidates keep any property both inputs have. -/
lemma updBest_cases (best : Option (Nat × Nat)) (c r : Nat × Nat)
    (h : updBest best c = some r) : r = c ∨ best = some r := by
  rcases best with _ | b
  · simp only [updBest] at h
    injection h with h
    exact Or.inl h.symm
  · simp only [updBest] at h
    split at h
    · injection h with h
      exact Or.inl h.symm
    · injection h with h
      exact Or.inr (by rw [h])

/-- Invariant of the `inet_ntop6` run-finding loop: every run it can
report lies within the word list, is nonempty, and covers only zero
words. -/
lemma runsGo_spec (ws : List Nat) : ∀ (tail : List Nat) (i : Nat)
    (best cur : Option (Nat × Nat)), ws.drop i = tail →
    (∀ c, cur = some c → c.1 + c.2 = i ∧ 1 ≤ c.2 ∧ i ≤ ws.length ∧
      (∀ j, c.1 ≤ j → j < i → ws.getD j 1 = 0)) →
    (∀ b, best = some b → b.1 + b.2 ≤ ws.length ∧ 1 ≤ b.2 ∧
      (∀ j, b.1 ≤ j → j < b.1 + b.2 → ws.getD j 1 = 0)) →
    ∀ r, runsGo tail i best cur = some r →
      r.1 + r.2 ≤ ws.length ∧ 1 ≤ r.2 ∧
        (∀ j, r.1 ≤ j → j < r.1 + r.2 → ws.getD j 1 = 0) := by
  intro tail
  induction tail with
  | nil =>
    intro i best cur hdrop hcur hbest r hr
    simp only [runsGo] at hr
    rcases hc : cur with _ | c
    · rw [hc] at hr
      exact hbest r hr
    · rw [hc] at hr
      obtain ⟨h1, h2, h3, h4⟩ := hcur c hc
      rcases updBest_cases best c r hr with h | h
      · subst h
        exact ⟨by omega, h2, fun j hj1 hj2 => h4 j hj1 (by omega)⟩
      · exact hbest r h
  | cons w tail ih =>
    intro i best cur hdrop hcur hbest r hr
    have hilen : i < ws.length := by
      by_contra hcon
      rw [List.drop_eq_nil_of_le (by omega)] at hdrop
      exact (List.cons_ne_nil w tail) hdrop.symm
    have hwi : ws.getD i 1 = w := by
      have h0 := List.getElem?_drop ws i 0
      rw [hdrop] at h0
      simp only [List.getElem?_cons_zero, Nat.add_zero] at h0
      rw [List.getD_eq_getElem?_getD, ← h0]
      rfl
    have hdrop' : ws.drop (i + 1) = tail := by
      have := List.drop_drop 1 i ws
      rw [hdrop] at this
      simpa using this.symm
    simp only [runsGo] at hr
    by_cases hw : w = 0
    · rw [if_pos hw] at hr
      rcases hc : cur with _ | c
      · rw [hc] at hr
        refine ih (i + 1) best (some (i, 1)) hdrop' ?_ hbest r hr
        intro c hcc
        injection hcc with hcc
        subst hcc
        refine ⟨by omega, by omega, by omega, fun j hj1 hj2 => ?_⟩
        have : j = i := by omega
        subst this
        rw [hwi, hw]
      · rw [hc] at hr
        obtain ⟨h1, h2, h3, h4⟩ := hcur c hc
        refine ih (i + 1) best (some (c.1, c.2 + 1)) hdrop' ?_ hbest r hr
        intro c' hcc
        injection hcc with hcc
        subst hcc
        refine ⟨by omega, by omega, by omega, fun j hj1 hj2 => ?_⟩
        simp only at hj1 hj2
        rcases lt_or_le j i with hji | hji
        · exact h4 j hj1 hji
        · have : j = i := by omega
          subst this
          rw [hwi, hw]
    · rw [if_neg hw] at hr
      rcases hc : cur with _ | c
      · rw [hc] at hr
        exact ih (i + 1) best none hdrop' (by simp) hbest r hr
      · rw [hc] at hr
        obtain ⟨h1, h2, h3, h4⟩ := hcur c hc
        refine ih (i + 1) (updBest best c) none hdrop' (by simp) ?_ r hr
        intro b hb
        rcases updBest_cases best c b hb with h | h
        · subst h
          exact ⟨by omega, h2, fun j hj1 hj2 => h4 j hj1 (by omega)⟩
        · exact hbest b h

/-- Any best run reported by `bestRun` lies within the words, has length
at least two, and covers only zero words. -/
lemma bestRun_spec (ws : List Nat) (b l : Nat) (h : bestRun ws = some (b, l)) :
    b + l ≤ ws.length ∧ 2 ≤ l ∧ ∀ j, b ≤ j → j < b + l → ws.getD j 1 = 0 := by
  rw [bestRun] at h
  rcases hr : runsGo ws 0 none none with _ | r
  · rw [hr] at h
    simp at h
  · rw [hr] at h
    obtain ⟨h1, h2, h3⟩ := runsGo_spec ws ws 0 none none rfl (by simp) (by simp) r hr
    have h' : (if r.2 < 2 then none else some r) = some (b, l) := h
    by_cases hl : r.2 < 2
    · rw [if_pos hl] at h'
      exact absurd h' (by simp)
    · rw [if_neg hl] at h'
      injection h' with h'
      subst h'
      exact ⟨h1, by omega, h3⟩

/-- One step of the `inet_ntop6` output loop. -/
lemma ntop6Go_succ (ws : List Nat) (best : Option (Nat × Nat)) (f i : Nat) :
    ntop6Go ws best (f + 1) i =
      if inRun best i then
        (if isRunBase best i then [':'] else []) ++ ntop6Go ws best f (i + 1)
      else
        (if i ≠ 0 then [':'] else []) ++
          (if i = 6 ∧ isEmbedded best ws then
            inet_ntop4 (wordsToBytes2 (ws.getD 6 0) (ws.getD 7 0)) ++
              (if endsInRun best then [':'] else [])
          else hexDigits (ws.getD i 0) ++ ntop6Go ws best f (i + 1)) := rfl

/-- Exhausted output loop: a trailing best run appends a final `:`. -/
lemma ntop6Go_zero (ws : List Nat) (best : Option (Nat × Nat)) (i : Nat) :
    ntop6Go ws best 0 i = if endsInRun best then [':'] else [] := rfl

/-- With no compressible run, all eight groups are joined by `:`. -/
lemma ntop6_none (w0 w1 w2 w3 w4 w5 w6 w7 : Nat) :
    ntop6Go [w0, w1, w2, w3, w4, w5, w6, w7] none 8 0 =
      hexJoin [w0, w1, w2, w3, w4, w5, w6, w7] := by
  simp [ntop6Go_succ, ntop6Go_zero, inRun, isRunBase, isEmbedded, endsInRun, hexJoin, joinPre]

/-- Best run of the first six groups: encapsulated `::a.b.c.d` form. -/
lemma ntop6_emb6 (w0 w1 w2 w3 w4 w5 w6 w7 : Nat) :
    ntop6Go [w0, w1, w2, w3, w4, w5, w6, w7] (some (0, 6)) 8 0 =
      ':' :: ':' :: inet_ntop4 (wordsToBytes2 w6 w7) := by
  simp [ntop6Go_succ, ntop6Go_zero, inRun, isRunBase, isEmbedded, endsInRun]

/-- Best run of five groups before `0xffff`: `::ffff:a.b.c.d` form. -/
lemma ntop6_emb5 (w0 w1 w2 w3 w4 w6 w7 : Nat) :
    ntop6Go [w0, w1, w2, w3, w4, 65535, w6, w7] (some (0, 5)) 8 0 =
      ':' :: ':' :: (hexDigits 65535 ++ ':' :: inet_ntop4 (wordsToBytes2 w6 w7)) := by
  simp [ntop6Go_succ, ntop6Go_zero, inRun, isRunBase, isEmbedded, endsInRun]

/-- Any other best run yields leading groups, `::`, trailing groups, in
particular a lone trailing `:` when the run reaches the end. -/
lemma ntop6_runs (w0 w1 w2 w3 w4 w5 w6 w7 b l : Nat) (hl : 2 ≤ l) (hbl : b + l ≤ 8)
    (hemb6 : ¬ (b = 0 ∧ l = 6)) (hemb5 : ¬ (b = 0 ∧ l = 5 ∧ w5 = 65535)) :
    ntop6Go [w0, w1, w2, w3, w4, w5, w6, w7] (some (b, l)) 8 0 =
      hexJoin ([w0, w1, w2, w3, w4, w5, w6, w7].take b) ++
        ':' :: (joinPre ([w0, w1, w2, w3, w4, w5, w6, w7].drop (b + l)) ++
          (if b + l = 8 then [':'] else [])) := by
  have hb : b ≤ 6 := by omega
  have hl8 : l ≤ 8 := by omega
  interval_cases l <;> interval_cases b <;>
    simp_all [ntop6Go_succ, ntop6Go_zero, inRun, isRunBase, isEmbedded, endsInRun,
      hexJoin, joinPre]

/-- A word list splits around a known zero run into its prefix, a zero
block and its suffix. -/
lemma zero_run_decomp (ws : List Nat) (b l : Nat) (hbl : b + l ≤ ws.length)
    (hz : ∀ j, b ≤ j → j < b + l → ws.getD j 1 = 0) :
    ws = ws.take b ++ List.replicate l 0 ++ ws.drop (b + l) := by
  have hmid : List.replicate l 0 = (ws.drop b).take l := by
    symm
    rw [List.eq_replicate_iff]
    constructor
    · rw [List.length_take, List.length_drop]
      omega
    · intro x hx
      obtain ⟨n, hn, hget⟩ := List.mem_iff_getElem.mp hx
      have hnl : n < l := by
        have h' := hn
        rw [List.length_take, List.length_drop] at h'
        omega
      rw [List.getElem_take, List.getElem_drop] at hget
      have hz' := hz (b + n) (by omega) (by omega)
      rw [List.getD_eq_getElem?_getD, List.getElem?_eq_getElem (by omega)] at hz'
      simp only [Option.getD_some] at hz'
      rw [← hget, hz']
  rw [hmid, List.append_assoc]
  have hdl : ws.drop (b + l) = (ws.drop b).drop l := by
    rw [List.drop_drop]
  rw [hdl, List.take_append_drop, List.take_append_drop]

/-- The eight words of a 128-bit value recombine to that value. -/
lemma wordsToNat_v6words (n : Nat) (h : n < 2 ^ 128) : wordsToNat (v6words n) = n := by
  simp only [v6words, wordsToNat, List.foldl_cons, List.foldl_nil]
  omega

/-- IPv6 round trip at the word level: the `inet_ntop6` spelling of any
eight in-range words parses back to exactly those words. -/
lemma pton6_roundtrip_words (w0 w1 w2 w3 w4 w5 w6 w7 : Nat)
    (h0 : w0 < 65536) (h1 : w1 < 65536) (h2 : w2 < 65536) (h3 : w3 < 65536)
    (h4 : w4 < 65536) (h5 : w5 < 65536) (h6 : w6 < 65536) (h7 : w7 < 65536) :
    inet_pton6 (ntop6 [w0, w1, w2, w3, w4, w5, w6, w7]) =
      some [w0, w1, w2, w3, w4, w5, w6, w7] := by
  have hmem : ∀ g ∈ [w0, w1, w2, w3, w4, w5, w6, w7], g < 65536 := by
    intro g hg
    simp only [List.mem_cons, List.not_mem_nil, or_false] at hg
    rcases hg with rfl | rfl | rfl | rfl | rfl | rfl | rfl | rfl <;> assumption
  rw [ntop6]
  rcases hbr : bestRun [w0, w1, w2, w3, w4, w5, w6, w7] with _ | ⟨b, l⟩
  · rw [ntop6_none]
    exact pton6_full _ (by simp) hmem
  · obtain ⟨hbl, hl, hz⟩ := bestRun_spec _ b l hbr
    have hbl8 : b + l ≤ 8 := by simpa using hbl
    by_cases he6 : b = 0 ∧ l = 6
    · obtain ⟨rfl, rfl⟩ := he6
      have z0 : w0 = 0 := by simpa using hz 0 (by omega) (by omega)
      have z1 : w1 = 0 := by simpa using hz 1 (by omega) (by omega)
      have z2 : w2 = 0 := by simpa using hz 2 (by omega) (by omega)
      have z3 : w3 = 0 := by simpa using hz 3 (by omega) (by omega)
      have z4 : w4 = 0 := by simpa using hz 4 (by omega) (by omega)
      have z5 : w5 = 0 := by simpa using hz 5 (by omega) (by omega)
      subst z0 z1 z2 z3 z4 z5
      rw [ntop6_emb6]
      have hwb : wordsToBytes2 w6 w7 = [w6 / 256, w6 % 256, w7 / 256, w7 % 256] := rfl
      have hp := pton6_embedded6 (w6 / 256) (w6 % 256) (w7 / 256) (w7 % 256)
        (by omega) (by omega) (by omega) (by omega)
      rw [hwb, hp]
      have e6 : w6 / 256 * 256 + w6 % 256 = w6 := by omega
      have e7 : w7 / 256 * 256 + w7 % 256 = w7 := by omega
      rw [e6, e7]
      rfl
    · by_cases he5 : b = 0 ∧ l = 5 ∧ w5 = 65535
      · obtain ⟨rfl, rfl, rfl⟩ := he5
        have z0 : w0 = 0 := by simpa using hz 0 (by omega) (by omega)
        have z1 : w1 = 0 := by simpa using hz 1 (by omega) (by omega)
        have z2 : w2 = 0 := by simpa using hz 2 (by omega) (by omega)
        have z3 : w3 = 0 := by simpa using hz 3 (by omega) (by omega)
        have z4 : w4 = 0 := by simpa using hz 4 (by omega) (by omega)
        subst z0 z1 z2 z3 z4
        rw [ntop6_emb5]
        have hwb : wordsToBytes2 w6 w7 = [w6 / 256, w6 % 256, w7 / 256, w7 % 256] := rfl
        have hp := pton6_embedded5 (w6 / 256) (w6 % 256) (w7 / 256) (w7 % 256)
          (by omega) (by omega) (by omega) (by omega)
        rw [hwb, hp]
        have e6 : w6 / 256 * 256 + w6 % 256 = w6 := by omega
        have e7 : w7 / 256 * 256 + w7 % 256 = w7 := by omega
        rw [e6, e7]
        rfl
      · rw [ntop6_runs w0 w1 w2 w3 w4 w5 w6 w7 b l hl hbl8 he6 he5]
        have hdec := zero_run_decomp [w0, w1, w2, w3, w4, w5, w6, w7] b l
          (by simpa using hbl8) hz
        have hpre : ∀ g ∈ List.take b [w0, w1, w2, w3, w4, w5, w6, w7], g < 65536 :=
          fun g hg => hmem g (List.take_subset _ _ hg)
        have hpost : ∀ g ∈ List.drop (b + l) [w0, w1, w2, w3, w4, w5, w6, w7], g < 65536 :=
          fun g hg => hmem g (List.drop_subset _ _ hg)
        have hlen_take : (List.take b [w0, w1, w2, w3, w4, w5, w6, w7]).length = b := by
          rw [List.length_take]
          simp
          omega
        have hlen_drop : (List.drop (b + l) [w0, w1, w2, w3, w4, w5, w6, w7]).length =
            8 - (b + l) := by
          rw [List.length_drop]
          norm_num
        by_cases h8 : b + l = 8
        · rw [if_pos h8]
          have hdropnil : List.drop (b + l) [w0, w1, w2, w3, w4, w5, w6, w7] = [] :=
            List.drop_eq_nil_of_le (by simp; omega)
          rw [hdropnil] at hdec ⊢
          have hp2 := pton6_compressed (List.take b [w0, w1, w2, w3, w4, w5, w6, w7]) []
            hpre (by simp) (by rw [hlen_take]; simp; omega)
          simp only [List.isEmpty_nil, if_true, List.length_nil, Nat.add_zero] at hp2
          rw [hp2, hlen_take]
          have hcount : (8 : Nat) - b = l := by omega
          rw [hcount, List.append_nil]
          conv_rhs => rw [hdec, List.append_nil]
        · rw [if_neg h8]
          have hpostne : (List.drop (b + l) [w0, w1, w2, w3, w4, w5, w6, w7]).isEmpty = false := by
            rw [List.isEmpty_eq_false]
            intro hcon
            have hlc := congrArg List.length hcon
            rw [hlen_drop] at hlc
            simp at hlc
            omega
          have hp2 := pton6_compressed (List.take b [w0, w1, w2, w3, w4, w5, w6, w7])
            (List.drop (b + l) [w0, w1, w2, w3, w4, w5, w6, w7]) hpre hpost
            (by rw [hlen_take, hlen_drop]; omega)
          rw [hpostne] at hp2
          simp only [Bool.false_eq_true, if_false] at hp2
          rw [hp2, hlen_take, hlen_drop]
          have hcount : 8 - (b + (8 - (b + l))) = l := by omega
          rw [hcount]
          conv_rhs => rw [hdec]

/-- C6: round trip — for every valid 32-bit integer `v`,
`parse_v4(format_v4(v)) = v`, and for every valid 128-bit integer `v`,
`parse_v6(format_v6(v)) = v`. -/
theorem parse_format_roundtrip :
    (∀ v : Nat, v < 2 ^ 32 → (ipv4_bin2addr (v : Int)).bind parse_ipv4 = some v) ∧
      (∀ v : Nat, v < 2 ^ 128 → (ipv6_bin2addr (v : Int)).bind parse_ipv6 = some v) := by
  refine ⟨roundtrip_v4, fun v hv => ?_⟩
  have hneg : ¬ ((v : Int) < 0 ∨ (2 : Int) ^ 128 ≤ (v : Int)) := by
    push_neg
    constructor
    · exact_mod_cast Nat.zero_le v
    · exact_mod_cast hv
  simp only [ipv6_bin2addr, if_neg hneg, Option.some_bind, Int.toNat_natCast]
  rw [parse_ipv6]
  have hv6 : v6words v = [v / 2 ^ 112 % 65536, v / 2 ^ 96 % 65536, v / 2 ^ 80 % 65536,
      v / 2 ^ 64 % 65536, v / 2 ^ 48 % 65536, v / 2 ^ 32 % 65536, v / 2 ^ 16 % 65536,
      v % 65536] := rfl
  rw [hv6, pton6_roundtrip_words _ _ _ _ _ _ _ _ (by omega) (by omega) (by omega)
    (by omega) (by omega) (by omega) (by omega) (by omega)]
  rw [Option.map_some', ← hv6, wordsToNat_v6words v hv]

/-- C6 (witness): the round trip at `v = 0xa1b2c3d4` (IPv4) and
`v = 0xffff000000000dead00000beef000000` (IPv6). -/
theorem parse_format_roundtrip_witness :
    (ipv4_bin2addr ((0xa1b2c3d4 : Nat) : Int)).bind parse_ipv4 = some 0xa1b2c3d4 ∧
      (ipv6_bin2addr ((0xffff000000000dead00000beef000000 : Nat) : Int)).bind parse_ipv6 =
        some 0xffff000000000dead00000beef000000 :=
  ⟨parse_format_roundtrip.1 0xa1b2c3d4 (by decide),
    parse_format_roundtrip.2 0xffff000000000dead00000beef000000 (by decide)⟩

/-- When no two adjacent words are both zero, every run the
`inet_ntop6` run-finder can report has length at most one. -/
lemma runsGo_len (ws : List Nat)
    (hnoadj : ∀ i, i + 1 < ws.length → ¬ (ws.getD i 1 = 0 ∧ ws.getD (i + 1) 1 = 0)) :
    ∀ (tail : List Nat) (i : Nat) (best cur : Option (Nat × Nat)), ws.drop i = tail →
    (∀ c, cur = some c → c.1 + c.2 = i ∧ 1 ≤ c.2 ∧ c.2 ≤ 1 ∧
      (∀ j, c.1 ≤ j → j < i → ws.getD j 1 = 0)) →
    (∀ b, best = some b → b.2 ≤ 1) →
    ∀ r, runsGo tail i best cur = some r → r.2 ≤ 1 := by
  intro tail
  induction tail with
  | nil =>
    intro i best cur hdrop hcur hbest r hr
    simp only [runsGo] at hr
    rcases hc : cur with _ | c
    · rw [hc] at hr
      exact hbest r hr
    · rw [hc] at hr
      obtain ⟨h1, h2, h3, h4⟩ := hcur c hc
      rcases updBest_cases best c r hr with h | h
      · subst h
        exact h3
      · exact hbest r h
  | cons w tail ih =>
    intro i best cur hdrop hcur hbest r hr
    have hilen : i < ws.length := by
      by_contra hcon
      rw [List.drop_eq_nil_of_le (by omega)] at hdrop
      exact (List.cons_ne_nil w tail) hdrop.symm
    have hwi : ws.getD i 1 = w := by
      have h0 := List.getElem?_drop ws i 0
      rw [hdrop] at h0
      simp only [List.getElem?_cons_zero, Nat.add_zero] at h0
      rw [List.getD_eq_getElem?_getD, ← h0]
      rfl
    have hdrop' : ws.drop (i + 1) = tail := by
      have h1 := List.drop_drop 1 i ws
      rw [hdrop] at h1
      simpa using h1.symm
    simp only [runsGo] at hr
    by_cases hw : w = 0
    · rw [if_pos hw] at hr
      rcases hc : cur with _ | c
      · rw [hc] at hr
        refine ih (i + 1) best (some (i, 1)) hdrop' ?_ hbest r hr
        intro c hcc
        injection hcc with hcc
        subst hcc
        refine ⟨by omega, by omega, by omega, fun j hj1 hj2 => ?_⟩
        have hji : j = i := by omega
        subst hji
        rw [hwi, hw]
      · rw [hc] at hr
        obtain ⟨h1, h2, h3, h4⟩ := hcur c hc
        have hprev : ws.getD (i - 1) 1 = 0 := h4 (i - 1) (by omega) (by omega)
        have habs := hnoadj (i - 1) (by omega)
        rw [show i - 1 + 1 = i from by omega, hwi] at habs
        exact absurd ⟨hprev, hw⟩ habs
    · rw [if_neg hw] at hr
      rcases hc : cur with _ | c
      · rw [hc] at hr
        exact ih (i + 1) best none hdrop' (by simp) hbest r hr
      · rw [hc] at hr
        obtain ⟨h1, h2, h3, h4⟩ := hcur c hc
        refine ih (i + 1) (updBest best c) none hdrop' (by simp) ?_ r hr
        intro b hb
        rcases updBest_cases best c b hb with h | h
        · subst h
          exact h3
        · exact hbest b h

/-- With no two adjacent zero words there is no compressible run. -/
lemma bestRun_none_of_noadj (ws : List Nat)
    (hnoadj : ∀ i, i + 1 < ws.length → ¬ (ws.getD i 1 = 0 ∧ ws.getD (i + 1) 1 = 0)) :
    bestRun ws = none := by
  rw [bestRun]
  rcases hr : runsGo ws 0 none none with _ | r
  · rfl
  · have hr2 := runsGo_len ws hnoadj ws 0 none none rfl (by simp) (by simp) r hr
    simp [show r.2 < 2 from by omega]

/-- C2 (counterexample): at `0x00010000000300040005000600070008` —
groups `1,0,3,4,5,6,7,8`, whose longest zero run has length exactly one —
`format_v6` renders the zero group as `0`, not as `::`. -/
theorem single_zero_group_counterexample :
    ipv6_bin2addr 0x00010000000300040005000600070008 = some ("1:0:3:4:5:6:7:8".data) ∧
      ipv6_bin2addr 0x00010000000300040005000600070008 ≠ some ("1::3:4:5:6:7:8".data) := by
  refine ⟨by decide, by decide⟩

/-- C2 (amended): `format_v6` replaces the leftmost-longest run of TWO or
more consecutive zero groups with `::`; a zero run of length exactly one
is not compressed.  In particular, whenever the eight-group decomposition
has no two adjacent zero groups, the value is rendered as all eight groups
joined by `:`, lone zero groups appearing as `0`. -/
theorem single_zero_group_not_compressed :
    ∀ n : Nat, n < 2 ^ 128 →
      (∀ i, i < 7 → ¬ ((v6words n).getD i 1 = 0 ∧ (v6words n).getD (i + 1) 1 = 0)) →
      ipv6_bin2addr (n : Int) = some (hexJoin (v6words n)) := by
  intro n hn hnoadj
  have hneg : ¬ ((n : Int) < 0 ∨ (2 : Int) ^ 128 ≤ (n : Int)) := by
    push_neg
    constructor
    · exact_mod_cast Nat.zero_le n
    · exact_mod_cast hn
  simp only [ipv6_bin2addr, if_neg hneg, Int.toNat_natCast]
  congr 1
  have hna : ∀ i, i + 1 < (v6words n).length →
      ¬ ((v6words n).getD i 1 = 0 ∧ (v6words n).getD (i + 1) 1 = 0) := by
    intro i hi
    have hlen : (v6words n).length = 8 := rfl
    rw [hlen] at hi
    exact hnoadj i (by omega)
  rw [ntop6, bestRun_none_of_noadj _ hna]
  have hv6 : v6words n = [n / 2 ^ 112 % 65536, n / 2 ^ 96 % 65536, n / 2 ^ 80 % 65536,
      n / 2 ^ 64 % 65536, n / 2 ^ 48 % 65536, n / 2 ^ 32 % 65536, n / 2 ^ 16 % 65536,
      n % 65536] := rfl
  rw [hv6]
  exact ntop6_none _ _ _ _ _ _ _ _

/-- C2 (amended, witness): the uncompressed rendering at
`0x00010000000300040005000600070008` (groups `1,0,3,4,5,6,7,8`). -/
theorem single_zero_group_not_compressed_witness :
    ipv6_bin2addr ((0x00010000000300040005000600070008 : Nat) : Int) =
      some (hexJoin (v6words 0x00010000000300040005000600070008)) :=
  single_zero_group_not_compressed 0x00010000000300040005000600070008 (by decide) (by decide)
